import Mathlib

/-!
Whoswho — verification of the agent registry and interaction log.

Shallow embedding of `Whoswho.py`: a minimal multi-agent orchestration layer.
The external inference service is modelled by an `oracle` function
`(role_description, query, model) ↦ reply content`, and the wall clock
(`time.time()` sampled at each `log_interaction` call) by a function
`ts : Nat → Nat` applied to a running call counter.  Everything else is a
direct translation of the Python source.
-/

/-- A log record `{"timestamp": ..., "role": ..., "content": ...}` as appended
by `Agent.log_interaction`. -/
structure LogEntry where
  timestamp : Nat
  role : String
  content : String
  deriving DecidableEq, Repr, Inhabited

/-- The `formatted_response = {"role": "assistant", "content": response}`
record returned by `AIController.chat`. -/
structure Response where
  role : String
  content : String
  deriving DecidableEq, Repr, Inhabited

/-- The external inference service: maps `(role_description, query, model)` to
the accumulated reply text.  Stands in for the streamed OpenAI call. -/
abbrev ChatOracle := String → String → String → String

/-- Python `AIController.chat`: builds the two-message exchange, obtains the
accumulated streamed text from the service, and tags it with the assistant
role marker.  (The transport-failure path exits the process and is outside
the state space modelled here.) -/
def AIController.chat (oracle : ChatOracle) (role query model : String) : Response :=
  { role := "assistant", content := oracle role query model }

/-- ASCII fragment of the regex class `\w`: letters, digits, underscore. -/
def wordChar (c : Char) : Bool :=
  c.isAlphanum || c == '_'

/-- The backtick character (codepoint 96), the fence delimiter. -/
def backtick : Char := Char.ofNat 96

/-- Scan for the first occurrence of a closing fence ` ``` `; on success return
the text before it (regex group `(.*?)`, non-greedy, `re.DOTALL`) and the text
after it. -/
def splitAtFence : List Char → Option (List Char × List Char)
  | [] => none
  | c :: rest =>
    if c = backtick ∧ rest.take 2 = [backtick, backtick] then some ([], rest.drop 2)
    else
      match splitAtFence rest with
      | some (g, r) => some (c :: g, r)
      | none => none

/-- Try to match the regex `` ```(?:\w+)?\n(.*?)``` `` at the head of the
input; on success return (group 1, rest of input after the match).  The
optional greedy `(?:\w+)?` followed by the mandatory `\n` is equivalent to
skipping the maximal word-character run and then requiring a newline
(backtracking cannot help, since a word character is never a newline). -/
def tryMatch (l : List Char) : Option (List Char × List Char) :=
  if l.take 3 = [backtick, backtick, backtick] then
    if ((l.drop 3).dropWhile wordChar).head? = some '\n' then
      splitAtFence ((l.drop 3).dropWhile wordChar).tail
    else none
  else none

/-- The `re.findall` scanning loop, fuelled (each step consumes at least one
character, so `l.length` fuel suffices): leftmost match wins, scanning
resumes after each match. -/
def findAllFuel : Nat → List Char → List (List Char)
  | 0, _ => []
  | fuel + 1, l =>
    match tryMatch l with
    | some (g, r) => g :: findAllFuel fuel r
    | none =>
      match l with
      | [] => []
      | _ :: rest => findAllFuel fuel rest

/-- Python `re.findall(r'```(?:\w+)?\n(.*?)```', s, re.DOTALL)` over a character
list. -/
def findAll (l : List Char) : List (List Char) :=
  findAllFuel l.length l

/-- Python `AIController.extract_code`: every fenced code region of
`response['content']`, in order, fence markers stripped. -/
def AIController.extract_code (response : Response) : List String :=
  (findAll response.content.toList).map (fun g => g.asString)

/-- An agent: name, mutable role description, append-only log.  The controller
reference is factored out: inference calls take the oracle explicitly. -/
structure Agent where
  name : String
  role_description : String
  log : List LogEntry
  deriving DecidableEq, Repr, Inhabited

/-- Python `Agent.log_interaction(role, content)`: append one timestamped entry. -/
def Agent.log_interaction (a : Agent) (ts : Nat) (role content : String) : Agent :=
  { a with log := a.log ++ [{ timestamp := ts, role := role, content := content }] }

/-- The `for _ in range(iterations)` loop body of `Agent.interact`.  `k` is
the running count of `log_interaction` calls made so far (index into the
clock `ts`); the last argument carries the current value of the Python
variable `response` (`none` while still unbound). -/
def Agent.interactLoop (oracle : ChatOracle) (ts : Nat → Nat) (model : String) :
    Nat → Agent → String → Nat → Option Response → Agent × Option Response
  | _, a, _, 0, res => (a, res)
  | k, a, query, n + 1, _ =>
    let a₁ := a.log_interaction (ts k) a.name query
    let resp := AIController.chat oracle a.role_description query model
    let a₂ := a₁.log_interaction (ts (k + 1)) "assistant" resp.content
    Agent.interactLoop oracle ts model (k + 2) a₂ resp.content n (some resp)

/-- Variant of `Agent.interact` started with the clock counter at `k₀` (used when the
agent acts inside a registry whose clock has already advanced). -/
def Agent.interactFrom (oracle : ChatOracle) (ts : Nat → Nat) (k₀ : Nat) (a : Agent)
    (query model : String) (iterations : Nat) : Agent × Option Response :=
  Agent.interactLoop oracle ts model k₀ a query iterations none

/-- Python `Agent.interact(query, model='gpt-4o', iterations=1)`: returns the updated
agent together with the value of `return response` — `none` models the
`UnboundLocalError` raised when the loop never ran. -/
def Agent.interact (oracle : ChatOracle) (ts : Nat → Nat) (a : Agent)
    (query model : String) (iterations : Nat) : Agent × Option Response :=
  a.interactFrom oracle ts 0 query model iterations

/-- Python `Agent.get_log()`. -/
def Agent.get_log (a : Agent) : List LogEntry :=
  a.log

/-- Python `Agent.get_log_by_role(role_name)`. -/
def Agent.get_log_by_role (a : Agent) (role_name : String) : List LogEntry :=
  a.log.filter (fun entry => entry.role == role_name)

/-- Python `Agent.update_role(new_role_description)`. -/
def Agent.update_role (a : Agent) (new_role_description : String) : Agent :=
  { a with role_description := new_role_description }

/-- Python `Agent.extract_code`: delegates to the controller. -/
def Agent.extract_code (_ : Agent) (response : Response) : List String :=
  AIController.extract_code response

/-- The registry.  `self.agents` is a Python `dict`, modelled as an
insertion-ordered association list with unique keys (the dict operations
below keep the key set duplicate-free and preserve insertion order, as
CPython dicts do). -/
structure Whoswho where
  agents : List (String × Agent)
  deriving DecidableEq, Repr, Inhabited

/-- Assignment `d[name] = agent` on an insertion-ordered dict: overwrite in place if the
key is present, else append. -/
def dictInsert (m : List (String × Agent)) (name : String) (a : Agent) :
    List (String × Agent) :=
  if m.any (fun p => p.1 == name) then
    m.map (fun p => if p.1 == name then (p.1, a) else p)
  else
    m ++ [(name, a)]

/-- Python `Whoswho.add_agent(name, role_description)`. -/
def Whoswho.add_agent (w : Whoswho) (name role_description : String) : Whoswho :=
  ⟨dictInsert w.agents name ⟨name, role_description, []⟩⟩

/-- Python `Whoswho.get_agent(name)`: `self.agents.get(name, None)`. -/
def Whoswho.get_agent (w : Whoswho) (name : String) : Option Agent :=
  (w.agents.find? (fun p => p.1 == name)).map (fun p => p.2)

/-- Python `Whoswho.remove_agent(name)`: `if name in self.agents: del self.agents[name]`. -/
def Whoswho.remove_agent (w : Whoswho) (name : String) : Whoswho :=
  if w.agents.any (fun p => p.1 == name) then
    ⟨w.agents.eraseP (fun p => p.1 == name)⟩
  else
    w

/-- Python `Whoswho.update_agent(name, new_role_description)`: mutates the stored
agent's role in place when present (under unique keys, updating the value at
the key), else raises `ValueError`. -/
def Whoswho.update_agent (w : Whoswho) (name new_role_description : String) :
    Except String Whoswho :=
  match w.get_agent name with
  | some _ =>
    .ok ⟨w.agents.map (fun p =>
      if p.1 == name then (p.1, p.2.update_role new_role_description) else p)⟩
  | none => .error ("Agent with name " ++ name ++ " does not exist.")

/-- Python `Whoswho.list_agents()`: name ↦ role_description snapshot. -/
def Whoswho.list_agents (w : Whoswho) : List (String × String) :=
  w.agents.map (fun p => (p.1, p.2.role_description))

/-- Python `Whoswho.get_agent_log(name)`. -/
def Whoswho.get_agent_log (w : Whoswho) (name : String) : Option (List LogEntry) :=
  (w.get_agent name).map (fun a => a.get_log)

/-- Python `Whoswho.get_agent_log_by_role(name)`: note the source passes the agent's
own *name* as the role filter. -/
def Whoswho.get_agent_log_by_role (w : Whoswho) (name : String) : Option (List LogEntry) :=
  (w.get_agent name).map (fun a => a.get_log_by_role name)

/-- Timestamp comparison used to sort the merged log. -/
def entry_le (e₁ e₂ : LogEntry) : Bool :=
  Nat.ble e₁.timestamp e₂.timestamp

/-- The concatenation `full_log` accumulated by the loop in
`Whoswho.get_full_log` before sorting, in registry insertion order. -/
def Whoswho.all_logs (w : Whoswho) : List LogEntry :=
  (w.agents.map (fun p => p.2.get_log)).flatten

/-- Python `Whoswho.get_full_log()`: concatenate every agent's log, then
`full_log.sort(key=lambda entry: entry['timestamp'])` — Python's sort is
stable, modelled by stable `mergeSort`. -/
def Whoswho.get_full_log (w : Whoswho) : List LogEntry :=
  w.all_logs.mergeSort entry_le

/-- A public operation on the registry, as issued by client code. -/
inductive Op where
  | add (name role : String)
  | remove (name : String)
  | update (name role : String)
  | interact (name query model : String) (iterations : Nat)
  deriving DecidableEq, Repr

/-- One public operation applied to `(registry, clock)`.  `clock` counts the
`log_interaction` calls made so far (index into `ts`).  A failing
`update_agent` propagates an exception and leaves the state unchanged;
`interact` on an absent name raises on `None` and also changes nothing. -/
def applyOp (oracle : ChatOracle) (ts : Nat → Nat) :
    Whoswho × Nat → Op → Whoswho × Nat
  | (w, clock), .add n r => (w.add_agent n r, clock)
  | (w, clock), .remove n => (w.remove_agent n, clock)
  | (w, clock), .update n r =>
    match w.update_agent n r with
    | .ok w' => (w', clock)
    | .error _ => (w, clock)
  | (w, clock), .interact n q m k =>
    match w.get_agent n with
    | none => (w, clock)
    | some a =>
      let res := a.interactFrom oracle ts clock q m k
      (⟨w.agents.map (fun p => if p.1 == n then (p.1, res.1) else p)⟩,
       clock + 2 * k)

/-- Run a sequence of public operations from the freshly constructed
(empty) registry. -/
def runOps (oracle : ChatOracle) (ts : Nat → Nat) (ops : List Op) : Whoswho × Nat :=
  ops.foldl (applyOp oracle ts) (⟨[]⟩, 0)

/-- The block of log entries appended by one `interact` call: for each
iteration, the query entry (role = agent name) then the reply entry
(role = "assistant"), with the reply feeding the next query. -/
def interactEntries (oracle : ChatOracle) (ts : Nat → Nat)
    (roleDesc name model : String) : Nat → String → Nat → List LogEntry
  | _, _, 0 => []
  | k, q, n + 1 =>
    let r := oracle roleDesc q model
    ⟨ts k, name, q⟩ :: ⟨ts (k + 1), "assistant", r⟩ ::
      interactEntries oracle ts roleDesc name model (k + 2) r n

/-- The content of the reply after chaining `n` self-directed iterations
starting from query `q`. -/
def chainReply (oracle : ChatOracle) (roleDesc model : String) : String → Nat → String
  | q, 0 => q
  | q, n + 1 => chainReply oracle roleDesc model (oracle roleDesc q model) n

/-- A client's sequence of `add_agent(name, role)` calls. -/
def addAll (w : Whoswho) (calls : List (String × String)) : Whoswho :=
  calls.foldl (fun w p => w.add_agent p.1 p.2) w

/-- Spec-side reading of "the role description most recently set for each
name": the role of the last call in the sequence that names `n`. -/
def mostRecentRole : List (String × String) → String → Option String
  | [], _ => none
  | (k, v) :: rest, n =>
    match mostRecentRole rest n with
    | some r => some r
    | none => if k == n then some v else none

/-- A registry reached through the public operations: one agent named
`"alice"` that performed a single query/reply interaction. -/
def wAlice : Whoswho :=
  (runOps (fun _ _ _ => "reply") (fun k => k)
    [.add "alice" "helper", .interact "alice" "q" "m" 1]).1

/-- A registry reached through the public operations: one agent whose name is
literally the assistant marker `"assistant"`, after a single query/reply
interaction. -/
def wAssistant : Whoswho :=
  (runOps (fun _ _ _ => "reply") (fun k => k)
    [.add "assistant" "helper", .interact "assistant" "q" "m" 1]).1

/-- Every entry of the agent's log is its own query or an assistant reply. -/
def LogOk (a : Agent) : Prop :=
  ∀ e ∈ a.log, e.role = a.name ∨ e.role = "assistant"

/-- The C7 invariant over a registry state. -/
def StateOk (w : Whoswho) : Prop :=
  ∀ p ∈ w.agents, LogOk p.2

/-- Whether the text contains a run of three consecutive backticks (the only
shape the fence regex can anchor on). -/
def hasTriple : List Char → Bool
  | [] => false
  | c :: rest =>
    if c = backtick ∧ rest.take 2 = [backtick, backtick] then true else hasTriple rest

/-- A text made of fenced code blocks: for each block `(tag, body, sep)`, the
opening fence with language tag, a newline, the body, the closing fence, and
then the trailing text `sep` before the next block. -/
def renderBlocks : List (List Char × List Char × List Char) → List Char
  | [] => []
  | (tag, body, sep) :: bs =>
    backtick :: backtick :: backtick :: (tag ++ '\n' :: (body ++ backtick :: backtick :: backtick :: (sep ++ renderBlocks bs)))

/-- Unfolding of the `interact` loop: the agent keeps its name and role
description, the appended entries are `interactEntries`, and the returned
`response` is the chained final reply (or the initial `res` when the loop
never runs). -/
theorem interactLoop_eq (oracle : ChatOracle) (ts : Nat → Nat) (model : String) :
    ∀ (n k : Nat) (a : Agent) (q : String) (res : Option Response),
      Agent.interactLoop oracle ts model k a q n res =
        (⟨a.name, a.role_description,
          a.log ++ interactEntries oracle ts a.role_description a.name model k q n⟩,
         if n = 0 then res
         else some ⟨"assistant", chainReply oracle a.role_description model q n⟩) := by
  intro n
  induction n with
  | zero =>
    intro k a q res
    simp [Agent.interactLoop, interactEntries]
  | succ m ih =>
    intro k a q res
    rw [Agent.interactLoop, ih]
    simp only [Agent.log_interaction, AIController.chat, interactEntries, chainReply]
    cases m with
    | zero => simp [chainReply]
    | succ m' => simp [chainReply]

theorem interactEntries_length (oracle : ChatOracle) (ts : Nat → Nat)
    (roleDesc name model : String) :
    ∀ (n k : Nat) (q : String),
      (interactEntries oracle ts roleDesc name model k q n).length = 2 * n := by
  intro n
  induction n with
  | zero => intro k q; simp [interactEntries]
  | succ m ih =>
    intro k q
    simp only [interactEntries, List.length_cons, ih]
    omega

theorem chainReply_succ (oracle : ChatOracle) (roleDesc model : String) :
    ∀ (n : Nat) (q : String),
      chainReply oracle roleDesc model q (n + 1) =
        oracle roleDesc (chainReply oracle roleDesc model q n) model := by
  intro n
  induction n with
  | zero => intro q; simp [chainReply]
  | succ m ih =>
    intro q
    rw [chainReply, ih, chainReply]

theorem interactEntries_getD_even (oracle : ChatOracle) (ts : Nat → Nat)
    (roleDesc name model : String) :
    ∀ (n i k : Nat) (q : String), i < n →
      (interactEntries oracle ts roleDesc name model k q n).getD (2 * i) default =
        ⟨ts (k + 2 * i), name, chainReply oracle roleDesc model q i⟩ := by
  intro n
  induction n with
  | zero => intro i k q h; omega
  | succ m ih =>
    intro i k q h
    cases i with
    | zero => simp [interactEntries, chainReply]
    | succ j =>
      have h2 : 2 * (j + 1) = (2 * j) + 1 + 1 := by omega
      rw [interactEntries, h2]
      simp only [List.getD_cons_succ]
      rw [ih j (k + 2) (oracle roleDesc q model) (by omega)]
      have h3 : k + 2 + 2 * j = k + 2 * (j + 1) := by omega
      have h4 : k + (2 * j + 1 + 1) = k + 2 * (j + 1) := by omega
      rw [h3, h4]
      simp only [chainReply]

theorem interactEntries_getD_odd (oracle : ChatOracle) (ts : Nat → Nat)
    (roleDesc name model : String) :
    ∀ (n i k : Nat) (q : String), i < n →
      (interactEntries oracle ts roleDesc name model k q n).getD (2 * i + 1) default =
        ⟨ts (k + 2 * i + 1), "assistant", chainReply oracle roleDesc model q (i + 1)⟩ := by
  intro n
  induction n with
  | zero => intro i k q h; omega
  | succ m ih =>
    intro i k q h
    cases i with
    | zero => simp [interactEntries, chainReply]
    | succ j =>
      have h2 : 2 * (j + 1) + 1 = (2 * j + 1) + 1 + 1 := by omega
      rw [interactEntries, h2]
      simp only [List.getD_cons_succ]
      rw [ih j (k + 2) (oracle roleDesc q model) (by omega)]
      have h3 : k + 2 + 2 * j + 1 = k + 2 * (j + 1) + 1 := by omega
      rw [h3]
      simp only [chainReply]

/-- C1: for every agent, query and `k ≥ 1`, `interact(query, iterations=k)`
appends exactly `2k` new entries to the agent's log, alternating between an
entry whose role is the agent's own name (the query) and one whose role is
the assistant marker (the reply), starting with the agent's name; the first
query entry carries the original query, each reply is the service's answer to
that iteration's query, each later iteration's query is the previous reply's
content, and the call returns the final reply. -/
theorem C1_interact_appends (oracle : ChatOracle) (ts : Nat → Nat) (a : Agent)
    (query model : String) (k : Nat) (hk : 1 ≤ k) :
    ∃ newE : List LogEntry,
      (a.interact oracle ts query model k).1.log = a.log ++ newE ∧
      newE.length = 2 * k ∧
      (∀ i, i < k → (newE.getD (2 * i) default).role = a.name ∧
        (newE.getD (2 * i + 1) default).role = "assistant") ∧
      (newE.getD 0 default).content = query ∧
      (∀ i, i < k → (newE.getD (2 * i + 1) default).content =
        oracle a.role_description ((newE.getD (2 * i) default).content) model) ∧
      (∀ i, i + 1 < k → (newE.getD (2 * (i + 1)) default).content =
        (newE.getD (2 * i + 1) default).content) ∧
      (a.interact oracle ts query model k).2 =
        some ⟨"assistant", (newE.getD (2 * k - 1) default).content⟩ := by
  refine ⟨interactEntries oracle ts a.role_description a.name model 0 query k,
    ?_, ?_, ?_, ?_, ?_, ?_, ?_⟩
  · rw [Agent.interact, Agent.interactFrom, interactLoop_eq]
  · exact interactEntries_length oracle ts a.role_description a.name model k 0 query
  · intro i hi
    constructor
    · rw [interactEntries_getD_even oracle ts a.role_description a.name model k i 0 query hi]
    · rw [interactEntries_getD_odd oracle ts a.role_description a.name model k i 0 query hi]
  · have h0 : (0 : Nat) = 2 * 0 := rfl
    rw [h0, interactEntries_getD_even oracle ts a.role_description a.name model k 0 0 query
      (by omega)]
    rfl
  · intro i hi
    rw [interactEntries_getD_even oracle ts a.role_description a.name model k i 0 query hi,
      interactEntries_getD_odd oracle ts a.role_description a.name model k i 0 query hi,
      chainReply_succ]
  · intro i hi
    rw [interactEntries_getD_even oracle ts a.role_description a.name model k (i + 1) 0 query
      (by omega),
      interactEntries_getD_odd oracle ts a.role_description a.name model k i 0 query
      (by omega)]
  · obtain ⟨m, rfl⟩ : ∃ m, k = m + 1 := ⟨k - 1, by omega⟩
    rw [Agent.interact, Agent.interactFrom, interactLoop_eq]
    have h1 : 2 * (m + 1) - 1 = 2 * m + 1 := by omega
    rw [h1, interactEntries_getD_odd oracle ts a.role_description a.name model (m + 1) m 0
      query (by omega)]
    simp

/-- Witness for C1 at a concrete oracle, clock, agent and `k = 2`. -/
theorem C1_witness :
    ∃ newE : List LogEntry,
      ((Agent.mk "alice" "helper" []).interact (fun _ q _ => String.append q "!")
        (fun n => n) "q" "m" 2).1.log = [] ++ newE ∧
      newE.length = 2 * 2 ∧
      (∀ i, i < 2 → (newE.getD (2 * i) default).role = (Agent.mk "alice" "helper" []).name ∧
        (newE.getD (2 * i + 1) default).role = "assistant") ∧
      (newE.getD 0 default).content = "q" ∧
      (∀ i, i < 2 → (newE.getD (2 * i + 1) default).content =
        (fun (_ q _ : String) => String.append q "!") (Agent.mk "alice" "helper" []).role_description
          ((newE.getD (2 * i) default).content) "m") ∧
      (∀ i, i + 1 < 2 → (newE.getD (2 * (i + 1)) default).content =
        (newE.getD (2 * i + 1) default).content) ∧
      ((Agent.mk "alice" "helper" []).interact (fun _ q _ => String.append q "!")
        (fun n => n) "q" "m" 2).2 =
        some ⟨"assistant", (newE.getD (2 * 2 - 1) default).content⟩ :=
  C1_interact_appends (fun _ q _ => String.append q "!") (fun n => n)
    (Agent.mk "alice" "helper" []) "q" "m" 2 (by decide)

/-- C8: `update_role(r)` replaces the role description — every later
`interact` sends `r` as the system instruction, so with `k` chained
iterations the final reply is the chain driven by `r` — and changes nothing
else: the agent's name and every existing log entry are untouched. -/
theorem C8_update_role (a : Agent) (r : String) (oracle : ChatOracle)
    (ts : Nat → Nat) (q model : String) (k : Nat) (hk : 1 ≤ k) :
    (a.update_role r).role_description = r ∧
    (a.update_role r).name = a.name ∧
    (a.update_role r).log = a.log ∧
    ((a.update_role r).interact oracle ts q model 1).2 =
      some ⟨"assistant", oracle r q model⟩ ∧
    ((a.update_role r).interact oracle ts q model k).2 =
      some ⟨"assistant", chainReply oracle r model q k⟩ := by
  refine ⟨rfl, rfl, rfl, ?_, ?_⟩
  · rw [Agent.interact, Agent.interactFrom, interactLoop_eq]
    simp [Agent.update_role, chainReply]
  · obtain ⟨m, rfl⟩ : ∃ m, k = m + 1 := ⟨k - 1, by omega⟩
    rw [Agent.interact, Agent.interactFrom, interactLoop_eq]
    simp [Agent.update_role]

/-- Witness for C8 at a concrete agent, oracle and `k = 3`. -/
theorem C8_witness :
    ((Agent.mk "bob" "old" [⟨5, "bob", "hi"⟩]).update_role "new").role_description = "new" ∧
    ((Agent.mk "bob" "old" [⟨5, "bob", "hi"⟩]).update_role "new").name =
      (Agent.mk "bob" "old" [⟨5, "bob", "hi"⟩]).name ∧
    ((Agent.mk "bob" "old" [⟨5, "bob", "hi"⟩]).update_role "new").log =
      (Agent.mk "bob" "old" [⟨5, "bob", "hi"⟩]).log ∧
    (((Agent.mk "bob" "old" [⟨5, "bob", "hi"⟩]).update_role "new").interact
      (fun rd q _ => String.append rd q) (fun n => n) "q" "m" 1).2 =
      some ⟨"assistant", (fun (rd q _ : String) => String.append rd q) "new" "q" "m"⟩ ∧
    (((Agent.mk "bob" "old" [⟨5, "bob", "hi"⟩]).update_role "new").interact
      (fun rd q _ => String.append rd q) (fun n => n) "q" "m" 3).2 =
      some ⟨"assistant",
        chainReply (fun rd q _ => String.append rd q) "new" "m" "q" 3⟩ :=
  C8_update_role (Agent.mk "bob" "old" [⟨5, "bob", "hi"⟩]) "new"
    (fun rd q _ => String.append rd q) (fun n => n) "q" "m" 3 (by decide)

/-- C9: `interact` with `iterations = 0` runs the loop zero times, appends no
log entries, and fails to return a reply record (the Python `response`
variable is never bound, modelled by `none`); with the spec's precondition
`iterations ≥ 1` the call always returns a reply record. -/
theorem C9_interact_zero (oracle : ChatOracle) (ts : Nat → Nat) (a : Agent)
    (q model : String) :
    a.interact oracle ts q model 0 = (a, none) ∧
    ∀ k, 1 ≤ k → ∃ resp : Response, (a.interact oracle ts q model k).2 = some resp := by
  constructor
  · rfl
  · intro k hk
    obtain ⟨m, rfl⟩ : ∃ m, k = m + 1 := ⟨k - 1, by omega⟩
    rw [Agent.interact, Agent.interactFrom, interactLoop_eq]
    exact ⟨⟨"assistant", chainReply oracle a.role_description model q (m + 1)⟩, by simp⟩

/-- Witness for C9 at a concrete agent and oracle, with `k = 1` for the
second conjunct. -/
theorem C9_witness :
    (Agent.mk "carol" "r" []).interact (fun _ _ _ => "out") (fun n => n) "q" "m" 0 =
      (Agent.mk "carol" "r" [], none) ∧
    ∃ resp : Response,
      ((Agent.mk "carol" "r" []).interact (fun _ _ _ => "out") (fun n => n) "q" "m" 1).2 =
        some resp :=
  ⟨(C9_interact_zero (fun _ _ _ => "out") (fun n => n) (Agent.mk "carol" "r" []) "q" "m").1,
   (C9_interact_zero (fun _ _ _ => "out") (fun n => n) (Agent.mk "carol" "r" []) "q" "m").2
     1 (by decide)⟩

theorem find?_map_of_pred {α : Type} (f : α → α) (p : α → Bool)
    (hp : ∀ x, p (f x) = p x) :
    ∀ l : List α, (l.map f).find? p = (l.find? p).map f := by
  intro l
  induction l with
  | nil => rfl
  | cons x xs ih =>
    by_cases hx : p x = true
    · rw [List.map_cons, List.find?_cons_of_pos _ (by rw [hp]; exact hx),
        List.find?_cons_of_pos _ hx, Option.map_some']
    · rw [List.map_cons, List.find?_cons_of_neg _ (by rw [hp]; exact hx),
        List.find?_cons_of_neg _ hx, ih]

theorem key_pred_apply (n m : String) (g : Agent → Agent) (p : String × Agent) :
    ((if p.1 == n then (p.1, g p.2) else p).1 == m) = (p.1 == m) := by
  by_cases h : p.1 == n <;> simp [h]

/-- Replacing the value stored under key `n` (keys untouched) transforms the
result of `get_agent m` exactly when `m = n`. -/
theorem get_agent_mapValue (w : Whoswho) (n m : String) (g : Agent → Agent) :
    (Whoswho.mk (w.agents.map (fun p => if p.1 == n then (p.1, g p.2) else p))).get_agent m =
      (w.get_agent m).map (fun a => if m = n then g a else a) := by
  unfold Whoswho.get_agent
  rw [find?_map_of_pred _ _ (key_pred_apply n m g)]
  cases hf : w.agents.find? (fun p => p.1 == m) with
  | none => rfl
  | some p₀ =>
    have hkey : p₀.1 = m := by
      have h := List.find?_some hf
      simpa using h
    simp only [Option.map_some']
    rw [hkey]
    by_cases hmn : m = n <;> simp [hmn]

theorem get_agent_add_agent (w : Whoswho) (n r m : String) :
    (w.add_agent n r).get_agent m =
      if m = n then some ⟨n, r, []⟩ else w.get_agent m := by
  unfold Whoswho.add_agent dictInsert
  by_cases hany : w.agents.any (fun p => p.1 == n) = true
  · rw [if_pos hany]
    have h := get_agent_mapValue w n m (fun _ => ⟨n, r, []⟩)
    unfold Whoswho.get_agent at h ⊢
    rw [h]
    by_cases hmn : m = n
    · subst hmn
      obtain ⟨p₀, hmem, hp₀⟩ := List.any_eq_true.mp hany
      have hsome : (List.find? (fun p => p.1 == m) w.agents).isSome := by
        rw [List.find?_isSome]
        exact ⟨p₀, hmem, hp₀⟩
      obtain ⟨q₀, hq₀⟩ := Option.isSome_iff_exists.mp hsome
      rw [hq₀]
      simp
    · rw [if_neg hmn]
      cases w.agents.find? (fun p => p.1 == m) with
      | none => rfl
      | some p₀ => simp [hmn]
  · rw [if_neg hany]
    have hnone : w.agents.find? (fun p => p.1 == n) = none := by
      rw [List.find?_eq_none]
      intro x hx
      exact fun hpx => hany (List.any_eq_true.mpr ⟨x, hx, hpx⟩)
    unfold Whoswho.get_agent
    rw [List.find?_append]
    by_cases hmn : m = n
    · subst hmn
      rw [hnone]
      simp
    · rw [if_neg hmn]
      have hsingle :
          List.find? (fun p => p.1 == m) [(n, (⟨n, r, []⟩ : Agent))] = none := by
        rw [List.find?_eq_none]
        intro x hxm
        rw [List.mem_singleton] at hxm
        subst hxm
        simp only [beq_iff_eq]
        exact fun h => hmn h.symm
      rw [hsingle, Option.or_none]

theorem list_agents_lookup (w : Whoswho) (m : String) :
    w.list_agents.lookup m = (w.get_agent m).map (fun a => a.role_description) := by
  unfold Whoswho.list_agents Whoswho.get_agent
  induction w.agents with
  | nil => rfl
  | cons x xs ih =>
    by_cases hx : x.1 = m
    · subst hx
      rw [List.map_cons, List.lookup_cons]
      simp
    · rw [List.map_cons, List.lookup_cons]
      have h1 : (m == x.1) = false := by
        simp only [beq_eq_false_iff_ne]
        exact fun h => hx h.symm
      have h2 : (x.1 == m) = false := by
        simp only [beq_eq_false_iff_ne]
        exact hx
      simp only [h1, List.find?_cons, h2]
      exact ih

theorem lookup_addAll :
    ∀ (calls : List (String × String)) (w : Whoswho) (n : String),
      (addAll w calls).list_agents.lookup n =
        match mostRecentRole calls n with
        | some r => some r
        | none => w.list_agents.lookup n := by
  intro calls
  induction calls with
  | nil => intro w n; rfl
  | cons kv rest ih =>
    intro w n
    obtain ⟨k, v⟩ := kv
    show (addAll (w.add_agent k v) rest).list_agents.lookup n = _
    rw [ih]
    cases hmr : mostRecentRole rest n with
    | some r => simp [mostRecentRole, hmr]
    | none =>
      simp only [mostRecentRole, hmr]
      rw [list_agents_lookup, get_agent_add_agent]
      by_cases hkn : k = n
      · subst hkn
        simp
      · have h1 : ¬ n = k := fun h => hkn h.symm
        have h2 : (k == n) = false := by simpa using hkn
        rw [if_neg h1, h2, list_agents_lookup]
        rfl

/-- C4: after any sequence of `add_agent` calls starting from the fresh
registry, `list_agents()` maps exactly the added names to the most recently
set role for each (absent names map to nothing); re-adding a name replaces
the agent entirely, so `get_agent_log` right after any `add_agent` is the
empty log. -/
theorem C4_add_agent_last_write (calls : List (String × String)) (n : String)
    (w : Whoswho) (r : String) :
    (addAll ⟨[]⟩ calls).list_agents.lookup n = mostRecentRole calls n ∧
    (w.add_agent n r).get_agent_log n = some [] := by
  constructor
  · rw [lookup_addAll]
    cases mostRecentRole calls n <;> rfl
  · unfold Whoswho.get_agent_log
    rw [get_agent_add_agent]
    simp [Agent.get_log]

theorem find?_eraseP_ne (n m : String) (hmn : m ≠ n) :
    ∀ l : List (String × Agent),
      (l.eraseP (fun p => p.1 == n)).find? (fun p => p.1 == m) =
        l.find? (fun p => p.1 == m) := by
  intro l
  induction l with
  | nil => rfl
  | cons x xs ih =>
    by_cases hx : x.1 = n
    · rw [List.eraseP_cons_of_pos (by simpa using hx)]
      have hxm : (x.1 == m) = false := by
        simp only [beq_eq_false_iff_ne]
        rw [hx]
        exact fun h => hmn h.symm
      simp only [List.find?_cons, hxm]
    · rw [List.eraseP_cons_of_neg (by simpa using hx)]
      by_cases hxm : x.1 = m
      · have h : (x.1 == m) = true := by simpa using hxm
        simp only [List.find?_cons, h]
      · have h : (x.1 == m) = false := by simpa using hxm
        simp only [List.find?_cons, h]
        exact ih

theorem find?_eraseP_self (n : String) :
    ∀ l : List (String × Agent), (l.map Prod.fst).Nodup →
      (l.eraseP (fun p => p.1 == n)).find? (fun p => p.1 == n) = none := by
  intro l
  induction l with
  | nil => intro _; rfl
  | cons x xs ih =>
    intro hnd
    rw [List.map_cons, List.nodup_cons] at hnd
    by_cases hx : x.1 = n
    · rw [List.eraseP_cons_of_pos (by simpa using hx)]
      rw [List.find?_eq_none]
      intro y hy hpy
      have hyn : y.1 = n := by simpa using hpy
      exact hnd.1 (by
        rw [hx, ← hyn]
        exact List.mem_map.mpr ⟨y, hy, rfl⟩)
    · rw [List.eraseP_cons_of_neg (by simpa using hx)]
      have h : (x.1 == n) = false := by simpa using hx
      simp only [List.find?_cons, h]
      exact ih hnd.2

/-- C5: `update_agent(n, r)` fails exactly when no agent named `n` exists;
when it exists the call succeeds, delegating to `update_role` (only that
agent's role changes).  `remove_agent(n)` never fails: on an absent name it
is a silent no-op leaving the registry unchanged, and on a present name it
deletes exactly that entry (the name stops resolving; every other name
resolves as before). -/
theorem C5_update_agent_remove_agent (w : Whoswho) (n r : String) :
    ((∃ e, w.update_agent n r = Except.error e) ↔ w.get_agent n = none) ∧
    (∀ a, w.get_agent n = some a →
      ∃ w', w.update_agent n r = Except.ok w' ∧
        w'.get_agent n = some (a.update_role r) ∧
        ∀ m, m ≠ n → w'.get_agent m = w.get_agent m) ∧
    (w.get_agent n = none → w.remove_agent n = w) ∧
    ((w.agents.map Prod.fst).Nodup → (w.remove_agent n).get_agent n = none) ∧
    (∀ m, m ≠ n → (w.remove_agent n).get_agent m = w.get_agent m) := by
  refine ⟨?_, ?_, ?_, ?_, ?_⟩
  · constructor
    · intro ⟨e, he⟩
      cases hg : w.get_agent n with
      | none => rfl
      | some a => rw [Whoswho.update_agent, hg] at he; exact absurd he (by simp)
    · intro hg
      rw [Whoswho.update_agent, hg]
      exact ⟨_, rfl⟩
  · intro a hg
    refine ⟨⟨w.agents.map (fun p =>
      if p.1 == n then (p.1, p.2.update_role r) else p)⟩, ?_, ?_, ?_⟩
    · rw [Whoswho.update_agent, hg]
    · rw [get_agent_mapValue w n n (fun a => a.update_role r), hg]
      simp
    · intro m hm
      rw [get_agent_mapValue w n m (fun a => a.update_role r)]
      cases w.get_agent m with
      | none => rfl
      | some b => simp [hm]
  · intro hg
    rw [Whoswho.remove_agent]
    have hany : w.agents.any (fun p => p.1 == n) = false := by
      rw [List.any_eq_false]
      intro x hx hpx
      have : (w.agents.find? (fun p => p.1 == n)).isSome :=
        List.find?_isSome.mpr ⟨x, hx, hpx⟩
      rw [Whoswho.get_agent] at hg
      cases hf : w.agents.find? (fun p => p.1 == n) with
      | none => rw [hf] at this; exact absurd this (by simp)
      | some p => rw [hf] at hg; exact absurd hg (by simp)
    rw [hany]
    simp
  · intro hnd
    rw [Whoswho.remove_agent]
    by_cases hany : w.agents.any (fun p => p.1 == n) = true
    · rw [if_pos hany, Whoswho.get_agent, find?_eraseP_self n w.agents hnd]
      rfl
    · rw [if_neg hany, Whoswho.get_agent]
      have hnone : w.agents.find? (fun p => p.1 == n) = none := by
        rw [List.find?_eq_none]
        intro x hx hpx
        exact hany (List.any_eq_true.mpr ⟨x, hx, hpx⟩)
      rw [hnone]
      rfl
  · intro m hm
    rw [Whoswho.remove_agent]
    by_cases hany : w.agents.any (fun p => p.1 == n) = true
    · rw [if_pos hany, Whoswho.get_agent, find?_eraseP_ne n m hm w.agents]
      rfl
    · rw [if_neg hany]

/-- Witness for C5 at a concrete two-agent registry with `n = "a"`. -/
theorem C5_witness :
    ((∃ e, (Whoswho.mk [("a", ⟨"a", "r1", []⟩), ("b", ⟨"b", "r2", []⟩)]).update_agent "a" "z" =
      Except.error e) ↔
      (Whoswho.mk [("a", ⟨"a", "r1", []⟩), ("b", ⟨"b", "r2", []⟩)]).get_agent "a" = none) ∧
    (∃ w', (Whoswho.mk [("a", ⟨"a", "r1", []⟩), ("b", ⟨"b", "r2", []⟩)]).update_agent "a" "z" =
      Except.ok w' ∧
      w'.get_agent "a" = some ((Agent.mk "a" "r1" []).update_role "z") ∧
      ∀ m, m ≠ "a" → w'.get_agent m =
        (Whoswho.mk [("a", ⟨"a", "r1", []⟩), ("b", ⟨"b", "r2", []⟩)]).get_agent m) ∧
    ((Whoswho.mk [("a", ⟨"a", "r1", []⟩), ("b", ⟨"b", "r2", []⟩)]).remove_agent "a").get_agent "a" =
      none ∧
    ((Whoswho.mk [("a", ⟨"a", "r1", []⟩), ("b", ⟨"b", "r2", []⟩)]).remove_agent "a").get_agent "b" =
      (Whoswho.mk [("a", ⟨"a", "r1", []⟩), ("b", ⟨"b", "r2", []⟩)]).get_agent "b" := by
  refine ⟨(C5_update_agent_remove_agent _ "a" "z").1, ?_, ?_, ?_⟩
  · exact (C5_update_agent_remove_agent
      (Whoswho.mk [("a", ⟨"a", "r1", []⟩), ("b", ⟨"b", "r2", []⟩)]) "a" "z").2.1
      (Agent.mk "a" "r1" []) (by rfl)
  · exact (C5_update_agent_remove_agent
      (Whoswho.mk [("a", ⟨"a", "r1", []⟩), ("b", ⟨"b", "r2", []⟩)]) "a" "z").2.2.2.1
      (by decide)
  · exact (C5_update_agent_remove_agent
      (Whoswho.mk [("a", ⟨"a", "r1", []⟩), ("b", ⟨"b", "r2", []⟩)]) "a" "z").2.2.2.2
      "b" (by decide)

/-- C2 (amended): `get_agent_log_by_role(n)` returns, for a registered agent
named `n`, exactly the subsequence of its log whose entries have role `n`
itself, and an absent value (not a failure) for an absent name; provided `n`
is not the assistant marker, the result never contains assistant-reply
entries, and for an agent whose log holds one query/reply pair it is exactly
the one query entry. -/
theorem C2_get_agent_log_by_role (w : Whoswho) (n : String) :
    (w.get_agent n = none → w.get_agent_log_by_role n = none) ∧
    (∀ a, w.get_agent n = some a →
      w.get_agent_log_by_role n = some (a.log.filter (fun e => e.role == n))) ∧
    (n ≠ "assistant" → ∀ l, w.get_agent_log_by_role n = some l →
      ∀ e ∈ l, e.role ≠ "assistant") ∧
    (n ≠ "assistant" → ∀ a t₁ t₂ q r, w.get_agent n = some a →
      a.log = [⟨t₁, n, q⟩, ⟨t₂, "assistant", r⟩] →
      w.get_agent_log_by_role n = some [⟨t₁, n, q⟩]) := by
  refine ⟨?_, ?_, ?_, ?_⟩
  · intro hg
    rw [Whoswho.get_agent_log_by_role, hg]
    rfl
  · intro a hg
    rw [Whoswho.get_agent_log_by_role, hg]
    rfl
  · intro hn l hl e hel
    rw [Whoswho.get_agent_log_by_role] at hl
    cases hg : w.get_agent n with
    | none => rw [hg] at hl; exact absurd hl (by simp)
    | some a =>
      rw [hg] at hl
      have hl' : l = a.log.filter (fun e => e.role == n) := by
        simpa [Agent.get_log_by_role] using hl.symm
      subst hl'
      have := (List.mem_filter.mp hel).2
      have hrole : e.role = n := by simpa using this
      rw [hrole]
      exact hn
  · intro hn a t₁ t₂ q r hg hlog
    rw [Whoswho.get_agent_log_by_role, hg]
    simp only [Option.map_some', Agent.get_log_by_role, hlog]
    have h1 : ((LogEntry.mk t₁ n q).role == n) = true := by simp
    have h2 : ((LogEntry.mk t₂ "assistant" r).role == n) = false := by
      simp only [beq_eq_false_iff_ne]
      exact fun h => hn h.symm
    rw [List.filter_cons_of_pos (by exact h1), List.filter_cons_of_neg (by simp [h2]),
      List.filter_nil]

/-- Witness for C2 at the concrete registry `wAlice` (agent `"alice"`, one
query/reply pair) and the absent name `"bob"`. -/
theorem C2_witness :
    wAlice.get_agent_log_by_role "bob" = none ∧
    wAlice.get_agent_log_by_role "alice" = some [⟨0, "alice", "q"⟩] :=
  ⟨(C2_get_agent_log_by_role wAlice "bob").1 (by rfl),
   (C2_get_agent_log_by_role wAlice "alice").2.2.2 (by decide)
     ⟨"alice", "helper", [⟨0, "alice", "q"⟩, ⟨1, "assistant", "reply"⟩]⟩
     0 1 "q" "reply" (by rfl) (by rfl)⟩

/-- Counterexample to C2 as stated: the agent registered under the name
`"assistant"` holds one query/reply pair in its log, yet
`get_agent_log_by_role("assistant")` returns both entries — including the
assistant-reply entry — not exactly the one query entry. -/
theorem C2_counterexample :
    wAssistant.get_agent_log "assistant" =
      some [⟨0, "assistant", "q"⟩, ⟨1, "assistant", "reply"⟩] ∧
    wAssistant.get_agent_log_by_role "assistant" =
      some [⟨0, "assistant", "q"⟩, ⟨1, "assistant", "reply"⟩] ∧
    (wAssistant.get_agent_log_by_role "assistant").map List.length ≠ some 1 := by
  refine ⟨by rfl, by rfl, by decide⟩

theorem interactEntries_roles (oracle : ChatOracle) (ts : Nat → Nat)
    (roleDesc name model : String) :
    ∀ (n k : Nat) (q : String),
      ∀ e ∈ interactEntries oracle ts roleDesc name model k q n,
        e.role = name ∨ e.role = "assistant" := by
  intro n
  induction n with
  | zero => intro k q e he; simp [interactEntries] at he
  | succ m ih =>
    intro k q e he
    rw [interactEntries, List.mem_cons, List.mem_cons] at he
    rcases he with h | h | h
    · left; rw [h]
    · right; rw [h]
    · exact ih (k + 2) (oracle roleDesc q model) e h

theorem LogOk_interactFrom (oracle : ChatOracle) (ts : Nat → Nat) (k₀ : Nat)
    (a : Agent) (q model : String) (it : Nat) (ha : LogOk a) :
    LogOk (a.interactFrom oracle ts k₀ q model it).1 := by
  rw [Agent.interactFrom, interactLoop_eq]
  intro e he
  rw [List.mem_append] at he
  rcases he with h | h
  · exact ha e h
  · exact interactEntries_roles oracle ts a.role_description a.name model it k₀ q e h

theorem StateOk_applyOp (oracle : ChatOracle) (ts : Nat → Nat)
    (s : Whoswho × Nat) (op : Op) (hs : StateOk s.1) :
    StateOk (applyOp oracle ts s op).1 := by
  obtain ⟨w, clock⟩ := s
  cases op with
  | add n r =>
    intro p hp
    rw [applyOp] at hp
    rw [Whoswho.add_agent, dictInsert] at hp
    by_cases hany : w.agents.any (fun p => p.1 == n) = true
    · rw [if_pos hany] at hp
      obtain ⟨p₀, hp₀, hfp⟩ := List.mem_map.mp hp
      by_cases hk : p₀.1 == n
      · rw [if_pos hk] at hfp
        rw [← hfp]
        intro e he
        simp at he
      · rw [if_neg hk] at hfp
        rw [← hfp]
        exact hs p₀ hp₀
    · rw [if_neg hany, List.mem_append] at hp
      rcases hp with h | h
      · exact hs p h
      · rw [List.mem_singleton] at h
        rw [h]
        intro e he
        simp at he
  | remove n =>
    intro p hp
    rw [applyOp] at hp
    rw [Whoswho.remove_agent] at hp
    by_cases hany : w.agents.any (fun p => p.1 == n) = true
    · rw [if_pos hany] at hp
      exact hs p (List.mem_of_mem_eraseP hp)
    · rw [if_neg hany] at hp
      exact hs p hp
  | update n r =>
    intro p hp
    rw [applyOp] at hp
    cases hu : w.update_agent n r with
    | ok w' =>
      rw [hu] at hp
      rw [Whoswho.update_agent] at hu
      cases hg : w.get_agent n with
      | none => rw [hg] at hu; exact absurd hu (by simp)
      | some a =>
        rw [hg] at hu
        have hw' : w' = ⟨w.agents.map (fun p =>
          if p.1 == n then (p.1, p.2.update_role r) else p)⟩ := by
          cases hu
          rfl
        rw [hw'] at hp
        obtain ⟨p₀, hp₀, hfp⟩ := List.mem_map.mp hp
        by_cases hk : p₀.1 == n
        · rw [if_pos hk] at hfp
          rw [← hfp]
          intro e he
          exact hs p₀ hp₀ e he
        · rw [if_neg hk] at hfp
          rw [← hfp]
          exact hs p₀ hp₀
    | error msg =>
      rw [hu] at hp
      exact hs p hp
  | interact n q m k =>
    intro p hp
    rw [applyOp] at hp
    cases hg : w.get_agent n with
    | none => rw [hg] at hp; exact hs p hp
    | some a =>
      rw [hg] at hp
      simp only at hp
      obtain ⟨p₀, hp₀, hfp⟩ := List.mem_map.mp hp
      have ha : LogOk a := by
        rw [Whoswho.get_agent] at hg
        cases hf : w.agents.find? (fun p => p.1 == n) with
        | none => rw [hf] at hg; exact absurd hg (by simp)
        | some q₀ =>
          rw [hf] at hg
          have hq₀ : q₀.2 = a := by simpa using hg
          rw [← hq₀]
          exact hs q₀ (List.mem_of_find?_eq_some hf)
      by_cases hk : p₀.1 == n
      · rw [if_pos hk] at hfp
        rw [← hfp]
        exact LogOk_interactFrom oracle ts clock a q m k ha
      · rw [if_neg hk] at hfp
        rw [← hfp]
        exact hs p₀ hp₀

theorem StateOk_foldl (oracle : ChatOracle) (ts : Nat → Nat) :
    ∀ (ops : List Op) (s : Whoswho × Nat), StateOk s.1 →
      StateOk (ops.foldl (applyOp oracle ts) s).1 := by
  intro ops
  induction ops with
  | nil => intro s hs; exact hs
  | cons op rest ih =>
    intro s hs
    exact ih (applyOp oracle ts s op) (StateOk_applyOp oracle ts s op hs)

/-- C7: in every registry state reachable through the public operations,
every entry of every agent's log has as role either that agent's own name or
the assistant marker — never a third value. -/
theorem C7_role_invariant (oracle : ChatOracle) (ts : Nat → Nat) (ops : List Op)
    (p : String × Agent) (e : LogEntry)
    (hp : p ∈ (runOps oracle ts ops).1.agents) (he : e ∈ p.2.log) :
    e.role = p.2.name ∨ e.role = "assistant" :=
  StateOk_foldl oracle ts ops (⟨[]⟩, 0) (fun _ h _ _ => absurd h (by simp)) p hp e he

/-- Witness for C7: the reply entry of `"alice"` after one interaction. -/
theorem C7_witness :
    (LogEntry.mk 1 "assistant" "reply").role =
      (Agent.mk "alice" "helper" [⟨0, "alice", "q"⟩, ⟨1, "assistant", "reply"⟩]).name ∨
    (LogEntry.mk 1 "assistant" "reply").role = "assistant" :=
  C7_role_invariant (fun _ _ _ => "reply") (fun k => k)
    [.add "alice" "helper", .interact "alice" "q" "m" 1]
    ("alice", Agent.mk "alice" "helper" [⟨0, "alice", "q"⟩, ⟨1, "assistant", "reply"⟩])
    (LogEntry.mk 1 "assistant" "reply") (by decide) (by decide)

theorem entry_le_trans : ∀ a b c : LogEntry, entry_le a b → entry_le b c → entry_le a c := by
  intro a b c hab hbc
  simp only [entry_le, Nat.ble_eq] at *
  omega

theorem entry_le_total : ∀ a b : LogEntry, entry_le a b || entry_le b a := by
  intro a b
  simp only [entry_le, Bool.or_eq_true, Nat.ble_eq]
  omega

/-- C3: `get_full_log()` is a permutation of the concatenation of all agents'
logs (in registry order), sorted by timestamp ascending, and the sort is
stable: for each timestamp value, the entries carrying it appear exactly as
they do in the concatenation. -/
theorem C3_get_full_log (w : Whoswho) :
    w.get_full_log.Perm w.all_logs ∧
    w.get_full_log.Pairwise (fun e₁ e₂ => e₁.timestamp ≤ e₂.timestamp) ∧
    ∀ t, w.get_full_log.filter (fun e => e.timestamp == t) =
      w.all_logs.filter (fun e => e.timestamp == t) := by
  refine ⟨List.mergeSort_perm w.all_logs entry_le, ?_, ?_⟩
  · have h := List.sorted_mergeSort entry_le_trans entry_le_total w.all_logs
    exact h.imp (fun hab => by simpa [entry_le, Nat.ble_eq] using hab)
  · intro t
    have hST : ∀ e ∈ w.all_logs.filter (fun e => e.timestamp == t), e.timestamp = t := by
      intro e he
      have := (List.mem_filter.mp he).2
      simpa using this
    have hS_pw : (w.all_logs.filter (fun e => e.timestamp == t)).Pairwise
        (fun e₁ e₂ => entry_le e₁ e₂ = true) := by
      apply List.pairwise_of_forall_mem_list
      intro a ha b hb
      rw [entry_le, Nat.ble_eq, hST a ha, hST b hb]
    have h1 : List.Sublist (w.all_logs.filter (fun e => e.timestamp == t))
        w.get_full_log :=
      List.sublist_mergeSort entry_le_trans entry_le_total hS_pw
        (List.filter_sublist w.all_logs)
    have hSfilter : (w.all_logs.filter (fun e => e.timestamp == t)).filter
        (fun e => e.timestamp == t) = w.all_logs.filter (fun e => e.timestamp == t) :=
      List.filter_eq_self.mpr (fun a ha => (List.mem_filter.mp ha).2)
    have h2 : List.Sublist (w.all_logs.filter (fun e => e.timestamp == t))
        (w.get_full_log.filter (fun e => e.timestamp == t)) := by
      have h3 := h1.filter (fun e => e.timestamp == t)
      rw [hSfilter] at h3
      exact h3
    have h5 : (w.get_full_log.filter (fun e => e.timestamp == t)).length =
        (w.all_logs.filter (fun e => e.timestamp == t)).length :=
      ((List.mergeSort_perm w.all_logs entry_le).filter
        (fun e => e.timestamp == t)).length_eq
    exact (h2.eq_of_length h5.symm).symm

theorem splitAtFence_eq_some :
    ∀ (body rest : List Char), (∀ c ∈ body, c ≠ backtick) →
      splitAtFence (body ++ backtick :: backtick :: backtick :: rest) = some (body, rest) := by
  intro body
  induction body with
  | nil =>
    intro rest _
    rw [List.nil_append, splitAtFence, if_pos (by simp)]
    rfl
  | cons c bs ih =>
    intro rest h
    have hc : c ≠ backtick := h c (List.mem_cons_self c bs)
    rw [List.cons_append, splitAtFence, if_neg (fun hand => hc hand.1),
      ih rest (fun x hx => h x (List.mem_cons_of_mem c hx))]

theorem splitAtFence_eq_none :
    ∀ l : List Char, (∀ c ∈ l, c ≠ backtick) → splitAtFence l = none := by
  intro l
  induction l with
  | nil => intro _; rfl
  | cons c bs ih =>
    intro h
    have hc : c ≠ backtick := h c (List.mem_cons_self c bs)
    rw [splitAtFence, if_neg (fun hand => hc hand.1),
      ih (fun x hx => h x (List.mem_cons_of_mem c hx))]

theorem splitAtFence_length :
    ∀ (l g r : List Char), splitAtFence l = some (g, r) →
      g.length + r.length + 3 = l.length := by
  intro l
  induction l with
  | nil =>
    intro g r h
    rw [splitAtFence] at h
    exact absurd h (by simp)
  | cons c bs ih =>
    intro g r h
    rw [splitAtFence] at h
    by_cases hcond : c = backtick ∧ bs.take 2 = [backtick, backtick]
    · rw [if_pos hcond] at h
      injection h with h1
      have htake : (bs.take 2).length = 2 := by rw [hcond.2]; rfl
      rw [List.length_take] at htake
      have hbs : 2 ≤ bs.length := by omega
      have hg : g = [] := by rw [← (Prod.mk.injEq _ _ _ _).mp h1 |>.1]
      have hr : r = bs.drop 2 := by rw [← (Prod.mk.injEq _ _ _ _).mp h1 |>.2]
      rw [hg, hr, List.length_drop]
      simp only [List.length_nil, List.length_cons]
      omega
    · rw [if_neg hcond] at h
      cases hs : splitAtFence bs with
      | none => rw [hs] at h; exact absurd h (by simp)
      | some gr =>
        obtain ⟨g', r'⟩ := gr
        rw [hs] at h
        simp only at h
        injection h with h1
        have hg : g = c :: g' := by rw [← (Prod.mk.injEq _ _ _ _).mp h1 |>.1]
        have hr : r = r' := by rw [← (Prod.mk.injEq _ _ _ _).mp h1 |>.2]
        have := ih g' r' hs
        rw [hg, hr]
        simp only [List.length_cons]
        omega

theorem dropWhile_word_tag (tag rest : List Char) (htag : ∀ c ∈ tag, wordChar c) :
    (tag ++ '\n' :: rest).dropWhile wordChar = '\n' :: rest := by
  induction tag with
  | nil =>
    rw [List.nil_append, List.dropWhile_cons]
    simp [wordChar]
  | cons c ts ih =>
    rw [List.cons_append, List.dropWhile_cons]
    have hc : wordChar c = true := htag c (List.mem_cons_self c ts)
    rw [hc]
    simp only [if_true]
    exact ih (fun x hx => htag x (List.mem_cons_of_mem c hx))

theorem tryMatch_fence (tag rest : List Char) (htag : ∀ c ∈ tag, wordChar c) :
    tryMatch (backtick :: backtick :: backtick :: (tag ++ '\n' :: rest)) = splitAtFence rest := by
  have hdw : ((backtick :: backtick :: backtick :: (tag ++ '\n' :: rest)).drop 3).dropWhile wordChar =
      '\n' :: rest := dropWhile_word_tag tag rest htag
  have h3 : (backtick :: backtick :: backtick :: (tag ++ '\n' :: rest)).take 3 = [backtick, backtick, backtick] := by rfl
  have hhd : ('\n' :: rest).head? = some '\n' := by rfl
  rw [tryMatch, if_pos h3, hdw, if_pos hhd]
  rfl

theorem tryMatch_eq_none_of_take (l : List Char) (h : l.take 3 ≠ [backtick, backtick, backtick]) :
    tryMatch l = none := by
  rw [tryMatch, if_neg h]

theorem tryMatch_cons_ne (c : Char) (l : List Char) (hc : c ≠ backtick) :
    tryMatch (c :: l) = none := by
  apply tryMatch_eq_none_of_take
  intro h
  rw [List.take_succ_cons] at h
  injection h with h1 _
  exact hc h1

theorem tryMatch_one_backtick (x : Char) (xs : List Char) (hx : x ≠ backtick) :
    tryMatch (backtick :: x :: xs) = none := by
  apply tryMatch_eq_none_of_take
  intro h
  rw [List.take_succ_cons, List.take_succ_cons] at h
  injection h with _ h2
  injection h2 with h3 _
  exact hx h3

theorem tryMatch_two_backticks (x : Char) (xs : List Char) (hx : x ≠ backtick) :
    tryMatch (backtick :: backtick :: x :: xs) = none := by
  apply tryMatch_eq_none_of_take
  intro h
  rw [List.take_succ_cons, List.take_succ_cons, List.take_succ_cons] at h
  injection h with _ h2
  injection h2 with _ h3
  injection h3 with h4 _
  exact hx h4

/-- Every successful match starts with an opening fence: three backticks, an
all-word-character language tag (possibly empty), then a mandatory newline;
the group is produced by the closing-fence scan on the remainder. -/
theorem tryMatch_some_spec (l g r : List Char) (h : tryMatch l = some (g, r)) :
    ∃ tag rest, (∀ c ∈ tag, wordChar c) ∧
      l = backtick :: backtick :: backtick :: (tag ++ '\n' :: rest) ∧
      splitAtFence rest = some (g, r) := by
  rw [tryMatch] at h
  by_cases ht : l.take 3 = [backtick, backtick, backtick]
  · rw [if_pos ht] at h
    by_cases hh : ((l.drop 3).dropWhile wordChar).head? = some '\n'
    · rw [if_pos hh] at h
      cases hd : (l.drop 3).dropWhile wordChar with
      | nil => rw [hd] at hh; exact absurd hh (by simp)
      | cons d ds =>
        have hdn : d = '\n' := by
          rw [hd] at hh
          simpa using hh
        refine ⟨(l.drop 3).takeWhile wordChar, ds, ?_, ?_, ?_⟩
        · intro c hcm
          exact List.mem_takeWhile_imp hcm
        · have hl3 : l.drop 3 = (l.drop 3).takeWhile wordChar ++ '\n' :: ds := by
            rw [← hdn, ← hd, List.takeWhile_append_dropWhile]
          calc l = l.take 3 ++ l.drop 3 := (List.take_append_drop 3 l).symm
            _ = [backtick, backtick, backtick] ++ l.drop 3 := by rw [ht]
            _ = [backtick, backtick, backtick] ++ ((l.drop 3).takeWhile wordChar ++ '\n' :: ds) :=
                congrArg (fun x => [backtick, backtick, backtick] ++ x) hl3
            _ = backtick :: backtick :: backtick :: ((l.drop 3).takeWhile wordChar ++ '\n' :: ds) := rfl
        · rw [hd] at h
          simpa using h
    · rw [if_neg hh] at h
      exact absurd h (by simp)
  · rw [if_neg ht] at h
    exact absurd h (by simp)

theorem tryMatch_length (l g r : List Char) (h : tryMatch l = some (g, r)) :
    r.length < l.length := by
  obtain ⟨tag, rest, _, hl, hs⟩ := tryMatch_some_spec l g r h
  have := splitAtFence_length rest g r hs
  rw [hl]
  simp only [List.length_cons, List.length_append]
  omega

theorem findAllFuel_nil : ∀ f : Nat, findAllFuel f [] = [] := by
  intro f
  cases f <;> rfl

theorem findAllFuel_congr :
    ∀ (f₁ : Nat) (l : List Char) (f₂ : Nat), l.length ≤ f₁ → l.length ≤ f₂ →
      findAllFuel f₁ l = findAllFuel f₂ l := by
  intro f₁
  induction f₁ with
  | zero =>
    intro l f₂ h1 _
    have hl : l = [] := List.eq_nil_of_length_eq_zero (Nat.le_zero.mp h1)
    rw [hl, findAllFuel_nil, findAllFuel_nil]
  | succ f ih =>
    intro l f₂ h1 h2
    cases l with
    | nil => rw [findAllFuel_nil, findAllFuel_nil]
    | cons c ls =>
      cases f₂ with
      | zero => rw [List.length_cons] at h2; omega
      | succ f₂' =>
        rw [List.length_cons] at h1 h2
        cases htm : tryMatch (c :: ls) with
        | some gr =>
          obtain ⟨g, r⟩ := gr
          have hr := tryMatch_length (c :: ls) g r htm
          rw [List.length_cons] at hr
          simp only [findAllFuel, htm]
          rw [ih r f₂' (by omega) (by omega)]
        | none =>
          simp only [findAllFuel, htm]
          exact ih ls f₂' (by omega) (by omega)

theorem findAll_cons_none (c : Char) (l : List Char)
    (h : tryMatch (c :: l) = none) : findAll (c :: l) = findAll l := by
  rw [findAll, findAll]
  simp only [List.length_cons, findAllFuel, h]

theorem findAll_cons_some (c : Char) (l g r : List Char)
    (h : tryMatch (c :: l) = some (g, r)) : findAll (c :: l) = g :: findAll r := by
  rw [findAll, findAll]
  simp only [List.length_cons, findAllFuel, h]
  have hr : r.length < l.length + 1 := by
    have := tryMatch_length (c :: l) g r h
    rw [List.length_cons] at this
    exact this
  rw [findAllFuel_congr l.length r r.length (by omega) (by omega)]

theorem findAll_append_no_backtick :
    ∀ (pre l : List Char), (∀ c ∈ pre, c ≠ backtick) → findAll (pre ++ l) = findAll l := by
  intro pre
  induction pre with
  | nil => intro l _; rw [List.nil_append]
  | cons c ps ih =>
    intro l h
    rw [List.cons_append,
      findAll_cons_none c (ps ++ l)
        (tryMatch_cons_ne c (ps ++ l) (h c (List.mem_cons_self c ps)))]
    exact ih l (fun x hx => h x (List.mem_cons_of_mem c hx))

theorem findAll_no_backtick (l : List Char) (h : ∀ c ∈ l, c ≠ backtick) :
    findAll l = [] := by
  have h0 := findAll_append_no_backtick l [] h
  rw [List.append_nil] at h0
  rw [h0]
  rfl

theorem tryMatch_some_hasTriple (l : List Char) (x : List Char × List Char)
    (h : tryMatch l = some x) : hasTriple l = true := by
  obtain ⟨g, r⟩ := x
  obtain ⟨tag, rest, _, hl, _⟩ := tryMatch_some_spec l g r h
  rw [hl, hasTriple, if_pos ⟨rfl, rfl⟩]

theorem hasTriple_cons_false (c : Char) (l : List Char)
    (h : hasTriple (c :: l) = false) : hasTriple l = false := by
  rw [hasTriple] at h
  by_cases hc : c = backtick ∧ l.take 2 = [backtick, backtick]
  · rw [if_pos hc] at h
    exact absurd h (by simp)
  · rw [if_neg hc] at h
    exact h

theorem findAll_of_no_triple : ∀ l : List Char, hasTriple l = false → findAll l = [] := by
  intro l
  induction l with
  | nil => intro _; rfl
  | cons c ls ih =>
    intro h
    cases htm : tryMatch (c :: ls) with
    | some x =>
      have := tryMatch_some_hasTriple (c :: ls) x htm
      rw [h] at this
      exact absurd this (by simp)
    | none =>
      rw [findAll_cons_none c ls htm]
      exact ih (hasTriple_cons_false c ls h)

theorem wordChar_ne_backtick (c : Char) (h : wordChar c = true) : c ≠ backtick := by
  intro hc
  rw [hc] at h
  exact absurd h (by decide)

theorem findAll_block (tag body rest : List Char) (htag : ∀ c ∈ tag, wordChar c)
    (hbody : ∀ c ∈ body, c ≠ backtick) :
    findAll (backtick :: backtick :: backtick :: (tag ++ '\n' :: (body ++ backtick :: backtick :: backtick :: rest))) =
      body :: findAll rest := by
  have htm : tryMatch (backtick :: backtick :: backtick :: (tag ++ '\n' :: (body ++ backtick :: backtick :: backtick :: rest))) =
      some (body, rest) := by
    rw [tryMatch_fence tag (body ++ backtick :: backtick :: backtick :: rest) htag]
    exact splitAtFence_eq_some body rest hbody
  exact findAll_cons_some backtick (backtick :: backtick :: (tag ++ '\n' :: (body ++ backtick :: backtick :: backtick :: rest)))
    body rest htm

theorem findAll_unclosed (tag body : List Char) (htag : ∀ c ∈ tag, wordChar c)
    (hbody : ∀ c ∈ body, c ≠ backtick) :
    findAll (backtick :: backtick :: backtick :: (tag ++ '\n' :: body)) = [] := by
  have h0 : tryMatch (backtick :: backtick :: backtick :: (tag ++ '\n' :: body)) = none := by
    rw [tryMatch_fence tag body htag, splitAtFence_eq_none body hbody]
  rw [findAll_cons_none _ _ h0]
  have h1 : tryMatch (backtick :: backtick :: (tag ++ '\n' :: body)) = none := by
    cases tag with
    | nil => exact tryMatch_two_backticks '\n' body (by decide)
    | cons t ts =>
      exact tryMatch_two_backticks t (ts ++ '\n' :: body)
        (wordChar_ne_backtick t (htag t (List.mem_cons_self t ts)))
  rw [findAll_cons_none _ _ h1]
  have h2 : tryMatch (backtick :: (tag ++ '\n' :: body)) = none := by
    cases tag with
    | nil => exact tryMatch_one_backtick '\n' body (by decide)
    | cons t ts =>
      exact tryMatch_one_backtick t (ts ++ '\n' :: body)
        (wordChar_ne_backtick t (htag t (List.mem_cons_self t ts)))
  rw [findAll_cons_none _ _ h2]
  apply findAll_no_backtick
  intro c hc
  rw [List.mem_append, List.mem_cons] at hc
  rcases hc with h | h | h
  · exact wordChar_ne_backtick c (htag c h)
  · rw [h]; decide
  · exact hbody c h

theorem findAll_renderBlocks :
    ∀ blocks : List (List Char × List Char × List Char),
      (∀ b ∈ blocks, (∀ c ∈ b.1, wordChar c) ∧ (∀ c ∈ b.2.1, c ≠ backtick) ∧
        (∀ c ∈ b.2.2, c ≠ backtick)) →
      findAll (renderBlocks blocks) = blocks.map (fun b => b.2.1) := by
  intro blocks
  induction blocks with
  | nil => intro _; rfl
  | cons b bs ih =>
    intro h
    obtain ⟨tag, body, sep⟩ := b
    have hb := h (tag, body, sep) (List.mem_cons_self _ _)
    rw [renderBlocks,
      findAll_block tag body (sep ++ renderBlocks bs) hb.1 hb.2.1,
      findAll_append_no_backtick sep (renderBlocks bs) hb.2.2,
      ih (fun x hx => h x (List.mem_cons_of_mem _ hx))]
    rfl

/-- C6: `extract_code` returns the interior text of each fenced region of the
content, in order of appearance, with the fence markers and optional language
tag stripped (matching is non-greedy: each region closes at the first
following fence, so several blocks yield several strings); a content with no
triple-backtick run yields the empty sequence, and an opening fence that is
never closed contributes no element. -/
theorem C6_extract_code (role : String) :
    (∀ (pre : List Char) (blocks : List (List Char × List Char × List Char)),
      (∀ c ∈ pre, c ≠ backtick) →
      (∀ b ∈ blocks, (∀ c ∈ b.1, wordChar c) ∧ (∀ c ∈ b.2.1, c ≠ backtick) ∧
        (∀ c ∈ b.2.2, c ≠ backtick)) →
      AIController.extract_code ⟨role, (pre ++ renderBlocks blocks).asString⟩ =
        blocks.map (fun b => b.2.1.asString)) ∧
    (∀ content : List Char, hasTriple content = false →
      AIController.extract_code ⟨role, content.asString⟩ = []) ∧
    (∀ (pre tag body : List Char), (∀ c ∈ pre, c ≠ backtick) →
      (∀ c ∈ tag, wordChar c) → (∀ c ∈ body, c ≠ backtick) →
      AIController.extract_code
        ⟨role, (pre ++ backtick :: backtick :: backtick :: (tag ++ '\n' :: body)).asString⟩ = []) := by
  refine ⟨?_, ?_, ?_⟩
  · intro pre blocks hpre hblocks
    rw [AIController.extract_code]
    have ht : ((pre ++ renderBlocks blocks).asString).toList = pre ++ renderBlocks blocks := rfl
    rw [ht, findAll_append_no_backtick pre _ hpre, findAll_renderBlocks blocks hblocks,
      List.map_map]
    rfl
  · intro content h
    rw [AIController.extract_code]
    have ht : (content.asString).toList = content := rfl
    rw [ht, findAll_of_no_triple content h]
    rfl
  · intro pre tag body hpre htag hbody
    rw [AIController.extract_code]
    have ht : ((pre ++ backtick :: backtick :: backtick :: (tag ++ '\n' :: body)).asString).toList =
        pre ++ backtick :: backtick :: backtick :: (tag ++ '\n' :: body) := rfl
    rw [ht, findAll_append_no_backtick pre _ hpre, findAll_unclosed tag body htag hbody]
    rfl

/-- Witness for C6: two fenced blocks (one with a language tag and a body
containing a newline, one untagged), leading text and separator text; the
extraction returns exactly the two bodies in order. -/
theorem C6_witness :
    AIController.extract_code ⟨"assistant",
      ((['A'] : List Char) ++
        renderBlocks [(['p'], ['x', '\n'], ['B']), ([], ['y'], [])]).asString⟩ =
      [(['x', '\n'] : List Char).asString, (['y'] : List Char).asString] := by
  have h := (C6_extract_code "assistant").1 ['A']
    [(['p'], ['x', '\n'], ['B']), ([], ['y'], [])] (by decide) (by decide)
  exact h

/-- C10: a fenced region is matched only when the opening triple backtick,
optionally followed by a word-character language tag, is immediately followed
by a newline; an inline fence without a newline, or a tag containing a
non-word character such as a hyphen, yields no extracted string. -/
theorem C10_fence_requires_newline :
    (∀ l g r : List Char, tryMatch l = some (g, r) →
      ∃ tag rest, (∀ c ∈ tag, wordChar c) ∧
        l = backtick :: backtick :: backtick :: (tag ++ '\n' :: rest)) ∧
    AIController.extract_code
      ⟨"assistant", ([backtick, backtick, backtick, 'x', backtick, backtick, backtick] : List Char).asString⟩ = [] ∧
    AIController.extract_code
      ⟨"assistant", ([backtick, backtick, backtick, 'f', 'o', 'o', '-', 'b', 'a', 'r', '\n',
        'c', 'o', 'd', 'e', '\n', backtick, backtick, backtick] : List Char).asString⟩ = [] := by
  refine ⟨?_, by decide, by decide⟩
  intro l g r h
  obtain ⟨tag, rest, htag, hl, _⟩ := tryMatch_some_spec l g r h
  exact ⟨tag, rest, htag, hl⟩

/-- Witness for C10: the match on ` ```a\nX``` ` is decomposed by the theorem
into tag `a` and remainder. -/
theorem C10_witness :
    ∃ tag rest, (∀ c ∈ tag, wordChar c) ∧
      ([backtick, backtick, backtick, 'a', '\n', 'X', backtick, backtick, backtick] : List Char) =
        backtick :: backtick :: backtick :: (tag ++ '\n' :: rest) :=
  (C10_fence_requires_newline).1 [backtick, backtick, backtick, 'a', '\n', 'X', backtick, backtick, backtick]
    ['X'] [] (by decide)

